import Mathlib

/-!
Verification of the Application Directory core of the fdc3-service
repository, as described by its specification, together with two
components that are present in the sources
(`src/src/demo/components/ContextChannelSelector/ContextChannelSelector.tsx`
and the test double in `src/test/provider/AppDirectory.unittest.ts`).

The `AppDirectory` class itself (`src/provider/model/AppDirectory.ts`) is
not part of the available sources — only its unit tests, its injector
registration and its consumers are — so the Directory's state machine is
modelled from the specification (§3, §4.1) and checked against its claimed
properties.  JSON payloads are abstracted as blobs that either decode to a
catalog or fail, which is the only aspect of JSON the Directory observes.
-/

namespace Fdc3

/-- A declared intent, from the catalog schema (`Application.intents`
entries in `src/test/provider/AppDirectory.unittest.ts`): a name, the
context type identifiers it accepts, and an opaque custom-configuration
mapping. -/
structure Intent where
  name : String
  contexts : List String
  customConfig : List (String × String)
deriving DecidableEq, Repr

/-- An application record of the directory catalog, from the catalog schema
used throughout `src/test/provider/AppDirectory.unittest.ts`. -/
structure Application where
  appId : String
  name : String
  manifest : String
  manifestType : String
  intents : List Intent
deriving DecidableEq, Repr

/-- A JSON value holding (or failing to hold) a catalog.  The Directory
only ever decodes such a value into a sequence of `Application` or observes
the decode failing, so the encoding is abstracted: a blob is either a valid
encoding of a catalog or a corrupt string. -/
inductive CatalogBlob where
  | valid (apps : List Application)
  | corrupt (s : String)
deriving DecidableEq, Repr

/-- Decoding a blob: yields the catalog for a valid encoding, fails on a
corrupt one (the model of `JSON.parse` followed by schema validation). -/
def parseCatalog : CatalogBlob → Option (List Application)
  | .valid apps => some apps
  | .corrupt _ => none

/-- Encoding a catalog (the model of `JSON.stringify`). -/
def encodeCatalog (apps : List Application) : CatalogBlob :=
  .valid apps

/-- The persistent key-value store as the Directory sees it (spec §4.2,
§6): two independent keys, the cached source URL and the cached catalog
encoding; each either absent or holding a value. -/
structure Store where
  url : Option String
  applications : Option CatalogBlob
deriving DecidableEq, Repr

/-- An HTTP-style response: a status code and a body
(mock `Response` class, `src/test/provider/AppDirectory.unittest.ts`). -/
structure Response where
  status : Nat
  body : CatalogBlob
deriving DecidableEq, Repr

/-- The success predicate of a response, transcribed from the `ok` getter
of the `Response` mock in `src/test/provider/AppDirectory.unittest.ts`
(lines 123–131): `status >= 200 && status <= 400`. -/
def Response.ok (r : Response) : Bool :=
  200 ≤ r.status && r.status ≤ 400

/-- The status range the specification describes in words: "the inclusive
status range conventionally associated with success (2xx–3xx boundary,
consistent with standard ok classification)", read literally as the 2xx
and 3xx status classes, 200 through 399. -/
def conventionalSuccess (status : Nat) : Bool :=
  200 ≤ status && status ≤ 399

/-- The outcome the fetch capability would produce if invoked: the promise
either rejects (network error) or resolves with a response (spec §4.3). -/
inductive FetchResult where
  | reject
  | resolve (r : Response)
deriving DecidableEq, Repr

/-- A refresh attempt fails when the fetch rejects, or resolves with a
non-success status, or its body fails to decode as a catalog (spec §4.3:
the three cases are treated identically). -/
def refreshFails : FetchResult → Bool
  | .reject => true
  | .resolve r => !r.ok || (parseCatalog r.body).isNone

/-- Modelled from the spec: the in-memory state of the missing
`AppDirectory` class (`src/provider/model/AppDirectory.ts`, absent from the
sources) — the in-memory catalog `_directory` and the configured source
URL `_url` (field names from the tests, which access
`appDirectory['_directory']` and `appDirectory['_url']`). -/
structure AppDirectory where
  _directory : List Application
  _url : String
deriving DecidableEq, Repr

/-- Modelled from the spec (§4.1 Construction): construction of the missing
`AppDirectory` class over a store.  Reads the cached catalog from the
store; absent means empty; present but unparsable is a corruption event:
the in-memory catalog resets to empty and the reset is persisted back to
the store's catalog entry.  Construction takes no `FetchResult` — it
performs no network I/O — and is a total function — it never fails.
Returns the constructed state and the (possibly healed) store. -/
def AppDirectory.create (configuredUrl : String) (store : Store) :
    AppDirectory × Store :=
  match store.applications with
  | none => (⟨[], configuredUrl⟩, store)
  | some blob =>
    match parseCatalog blob with
    | some apps => (⟨apps, configuredUrl⟩, store)
    | none =>
      (⟨[], configuredUrl⟩, { store with applications := some (encodeCatalog []) })

/-- Whether an application declares at least one intent with the given name
(spec §4.1, `getAppsByIntent`). -/
def declaresIntent (a : Application) (intentName : String) : Bool :=
  a.intents.any (fun i => i.name == intentName)

/-- Whether an application declares at least one intent with the given name
whose `contexts` set contains the given context, by exact string match
(spec §4.1, `getAppIntentsByContext`). -/
def declaresIntentWithContext (a : Application) (intentName context : String) :
    Bool :=
  a.intents.any (fun i => i.name == intentName && i.contexts.contains context)

/-- Modelled from the spec (§4.1 `getAppByName`, for the missing
`AppDirectory.getAppByName`): the first application in catalog order whose
`name` equals the argument, or `none` — the not-found signal — if none
match.  Stated over the catalog that `getAllApps()` returned. -/
def getAppByName (apps : List Application) (name : String) :
    Option Application :=
  apps.find? (fun a => a.name == name)

/-- Modelled from the spec (§4.1 `getAppsByIntent`, for the missing
`AppDirectory.getAppsByIntent`): every application declaring at least one
intent with the given name, in catalog order; the result type is a
sequence, so "nothing matches" is the empty sequence, never a not-found
signal.  Stated over the catalog that `getAllApps()` returned. -/
def getAppsByIntent (apps : List Application) (intentName : String) :
    List Application :=
  apps.filter (fun a => declaresIntent a intentName)

/-- The complete observable outcome of one `getAllApps()` call: the catalog
returned to the caller, the Directory state and store afterwards, and how
many times the fetch capability was invoked. -/
structure GetAllAppsResult where
  apps : List Application
  state : AppDirectory
  store : Store
  fetchCount : Nat
deriving DecidableEq, Repr

/-- Modelled from the spec (§4.1 `getAllApps`): the refresh algorithm of
the missing `AppDirectory.getAllApps`.  Compares the configured URL with
the URL recorded in the store; on a match returns the in-memory catalog
with zero fetches; on a mismatch invokes fetch once (`fetch` is the
outcome the capability produces for that one invocation): a successful,
decodable response replaces the catalog and persists both new catalog and
new URL; any failure returns the previous catalog and leaves state and
store untouched. -/
def AppDirectory.getAllApps (st : AppDirectory) (store : Store)
    (fetch : FetchResult) : GetAllAppsResult :=
  if store.url = some st._url then
    ⟨st._directory, st, store, 0⟩
  else
    match fetch with
    | .reject => ⟨st._directory, st, store, 1⟩
    | .resolve r =>
      if r.ok then
        match parseCatalog r.body with
        | some apps =>
          ⟨apps, { st with _directory := apps },
            ⟨some st._url, some (encodeCatalog apps)⟩, 1⟩
        | none => ⟨st._directory, st, store, 1⟩
      else ⟨st._directory, st, store, 1⟩

/-- Boolean lexicographic comparison on character sequences: shorter
prefixes come first, otherwise the first differing character decides. -/
def charListLe : List Char → List Char → Bool
  | [], _ => true
  | _ :: _, [] => false
  | a :: as, b :: bs =>
    if a < b then true else if b < a then false else charListLe as bs

/-- Boolean ordinary lexical ordering on strings (executable; proved below
to agree with the lexicographic string order `≤`). -/
def lexLe (s t : String) : Bool :=
  charListLe s.data t.data

/-- The intent descriptor inside a query result entry: the intent name and
its display name (spec §3, `AppIntentsByContext Result`). -/
structure IntentMetadata where
  name : String
  displayName : String
deriving DecidableEq, Repr

/-- One entry of the `getAppIntentsByContext` result: an intent descriptor
and the applications declaring that intent for the queried context
(spec §3, the `AppIntent` shape the tests compare against). -/
structure AppIntent where
  intent : IntentMetadata
  apps : List Application
deriving DecidableEq, Repr

/-- Appending an application to a group unless it is already present (spec
§4.1: "not duplicating an application already grouped under that
intent"). -/
def ensureMem (group : List Application) (a : Application) :
    List Application :=
  if a ∈ group then group else group ++ [a]

/-- Accumulating an application under an intent name: the first group with
that name is extended (without duplication), a missing group is appended
at the end in first-seen order. -/
def addToGroup : List (String × List Application) → String → Application →
    List (String × List Application)
  | [], intentName, a => [(intentName, [a])]
  | g :: rest, intentName, a =>
    if g.1 = intentName then (g.1, ensureMem g.2 a) :: rest
    else g :: addToGroup rest intentName a

/-- Processing one declared intent of one application: the application is
accumulated under the intent's name when the intent's `contexts` set
contains the queried context (exact string match). -/
def intentStep (a : Application) (context : String)
    (groups : List (String × List Application)) (i : Intent) :
    List (String × List Application) :=
  if i.contexts.contains context then addToGroup groups i.name a else groups

/-- Processing one application: every declared intent is processed in
declaration order. -/
def appStep (context : String) (groups : List (String × List Application))
    (a : Application) : List (String × List Application) :=
  a.intents.foldl (intentStep a context) groups

/-- Modelled from the spec (§4.1 `getAppIntentsByContext`, accumulation
phase): every application of the catalog, in catalog order, is accumulated
under each of its intent names applicable to the queried context. -/
def collectGroups (apps : List Application) (context : String) :
    List (String × List Application) :=
  apps.foldl (appStep context) []

/-- The ordering on accumulated groups used to emit result entries: by
intent name, in ordinary lexical order. -/
def groupLe (g h : String × List Application) : Prop :=
  lexLe g.1 h.1 = true

instance : DecidableRel groupLe :=
  fun g h => inferInstanceAs (Decidable (lexLe g.1 h.1 = true))

/-- Modelled from the spec (§4.1 `getAppIntentsByContext`, for the missing
`AppDirectory.getAppIntentsByContext`): accumulate applications under
intent names applicable to the context, then emit one entry per distinct
intent name, sorted by intent name in ordinary lexical order, with
`displayName` equal to `name`.  Stated over the catalog that
`getAllApps()` returned. -/
def getAppIntentsByContext (apps : List Application) (context : String) :
    List AppIntent :=
  (List.insertionSort groupLe (collectGroups apps context)).map
    (fun g => ⟨⟨g.1, g.1⟩, g.2⟩)

/-- Keep-first deduplication, skipping anything in `seen`: the reference
description of what a group accumulated for one intent name contains. -/
def dedupFirstAux (seen : List Application) :
    List Application → List Application
  | [] => []
  | a :: rest =>
    if a ∈ seen then dedupFirstAux seen rest
    else a :: dedupFirstAux (a :: seen) rest

/-- Keep-first deduplication of a list of applications: each application
keeps its first occurrence, later duplicates are dropped. -/
def dedupFirst (l : List Application) : List Application :=
  dedupFirstAux [] l

/-- The group an accumulator holds for an intent name: the contents of the
first (in a well-formed accumulator: only) group with that name, empty
when absent. -/
def groupFor (groups : List (String × List Application))
    (intentName : String) : List Application :=
  match groups.find? (fun g => g.1 == intentName) with
  | some g => g.2
  | none => []

/-- Collecting, in order, the applications satisfying a predicate into a
group without duplication: the per-name effect of the accumulation phase. -/
def collectMatching (p : Application → Bool)
    (group : List Application) : List Application → List Application
  | [] => group
  | a :: rest => collectMatching p (if p a then ensureMem group a else group) rest

/-- A context channel as the selector component consumes it: an identifier,
a display name and a numeric color
(`src/src/demo/components/ContextChannelSelector/ContextChannelSelector.tsx`). -/
structure Channel where
  id : String
  name : String
  color : Nat
deriving DecidableEq, Repr

/-- The outcome of the `joinChannel(id)` promise inside `handleChange`:
it either resolves or rejects with an error message. -/
inductive JoinOutcome where
  | resolves
  | rejects (message : String)
deriving DecidableEq, Repr

/-- One observable effect of the change handler: a React state update
(`setCurrentChannelId` or `setColor`) or a `console.error` call. -/
inductive ChannelAction where
  | setCurrentChannelId (id : String)
  | setColor (color : Nat)
  | logError (message : String)
deriving DecidableEq, Repr

/-- Transcribed from `handleChange` in
`src/src/demo/components/ContextChannelSelector/ContextChannelSelector.tsx`
(lines 33–51): look up the selected channel by id; await `joinChannel(id)`
inside a try block; on resolution set the current channel id and, when the
channel was found, its color; on rejection catch the error and log it.
The returned list is the sequence of effects the handler performs. -/
def handleChange (channels : List Channel) (id : String)
    (join : JoinOutcome) : List ChannelAction :=
  let selectedChannel := channels.find? (fun c => c.id == id)
  match join with
  | .resolves =>
    ChannelAction.setCurrentChannelId id ::
      (match selectedChannel with
        | some c => [ChannelAction.setColor c.color]
        | none => [])
  | .rejects message =>
    [ChannelAction.logError
      ("Unable to join channel " ++ id ++ "! " ++ message)]

/-- Transcribed from `num.toString(16)` as used by `numberToHex` on
non-negative integers: the base-16 digit string, lowercase, without
leading zeros, and `"0"` for zero. -/
def toHexString (num : Nat) : String :=
  if num = 0 then "0"
  else String.mk (((Nat.digits 16 num).map Nat.digitChar).reverse)

/-- Transcribed from `String.prototype.padStart(targetLength, pad)` with a
one-character pad string: prepend copies of the pad character until the
length reaches `targetLength`; a string already that long is returned
unchanged. -/
def padStart (s : String) (targetLength : Nat) (pad : Char) : String :=
  String.mk (List.replicate (targetLength - s.length) pad) ++ s

/-- Transcribed from `numberToHex` in
`src/src/demo/components/ContextChannelSelector/ContextChannelSelector.tsx`
(lines 80–82): `num.toString(16).padStart(6, '0')`. -/
def numberToHex (num : Nat) : String :=
  padStart (toHexString num) 6 '0'

end Fdc3

namespace Fdc3

/-- C2: on the cache-hit path (`spec §4.1` step 2) the store's recorded URL
equals the configured URL, the fetch capability is never invoked
(`fetchCount = 0`), and the in-memory catalog is returned with state and
store unchanged. -/
theorem getAllApps_cache_hit (st : AppDirectory) (store : Store)
    (fetch : FetchResult) (h : store.url = some st._url) :
    st.getAllApps store fetch = ⟨st._directory, st, store, 0⟩ := by
  unfold AppDirectory.getAllApps
  simp [h]

theorem getAllApps_cache_hit_witness :
    (Store.mk (some "u") none).url = some (AppDirectory.mk [] "u")._url ∧
      (AppDirectory.mk [] "u").getAllApps ⟨some "u", none⟩ .reject =
        ⟨[], ⟨[], "u"⟩, ⟨some "u", none⟩, 0⟩ :=
  ⟨rfl, getAllApps_cache_hit ⟨[], "u"⟩ ⟨some "u", none⟩ .reject rfl⟩

/-- C1: whenever the refresh attempt fails (fetch rejects, or resolves
with a non-success status, or its body fails to decode), `getAllApps`
raises nothing (it is a total function), returns the previous in-memory
catalog, and leaves the Directory state and both persisted store values
unmodified. -/
theorem getAllApps_failure_fallback (st : AppDirectory) (store : Store)
    (fetch : FetchResult) (h : refreshFails fetch = true) :
    (st.getAllApps store fetch).apps = st._directory ∧
      (st.getAllApps store fetch).state = st ∧
      (st.getAllApps store fetch).store = store := by
  unfold AppDirectory.getAllApps
  by_cases hurl : store.url = some st._url
  · simp [hurl]
  · simp only [if_neg hurl]
    cases fetch with
    | reject => exact ⟨rfl, rfl, rfl⟩
    | resolve r =>
      simp only [refreshFails, Bool.or_eq_true, Bool.not_eq_true'] at h
      rcases h with h | h
      · simp [h]
      · cases hok : r.ok
        · simp [hok]
        · rw [Option.isNone_iff_eq_none] at h
          simp [hok, h]

theorem getAllApps_failure_fallback_witness :
    refreshFails (.resolve ⟨500, .valid []⟩) = true ∧
      (((AppDirectory.mk [⟨"1", "App 1", "", "", []⟩] "a").getAllApps
          ⟨some "b", none⟩ (.resolve ⟨500, .valid []⟩)).apps =
        [⟨"1", "App 1", "", "", []⟩] ∧
      ((AppDirectory.mk [⟨"1", "App 1", "", "", []⟩] "a").getAllApps
          ⟨some "b", none⟩ (.resolve ⟨500, .valid []⟩)).state =
        ⟨[⟨"1", "App 1", "", "", []⟩], "a"⟩ ∧
      ((AppDirectory.mk [⟨"1", "App 1", "", "", []⟩] "a").getAllApps
          ⟨some "b", none⟩ (.resolve ⟨500, .valid []⟩)).store =
        ⟨some "b", none⟩) :=
  ⟨by decide,
    getAllApps_failure_fallback ⟨[⟨"1", "App 1", "", "", []⟩], "a"⟩
      ⟨some "b", none⟩ (.resolve ⟨500, .valid []⟩) (by decide)⟩

/-- C3: on the cache-miss path the fetch capability is invoked exactly
once, whatever the outcome; and when the fetched response is successful
and its body decodes, the call returns exactly the fetched catalog,
persists both the new catalog and the new URL to the store, and any
subsequent `getAllApps` call (URLs now matching) invokes no fetch and
returns that same catalog. -/
theorem getAllApps_cache_miss (st : AppDirectory) (store : Store)
    (fetch : FetchResult) (h : ¬store.url = some st._url) :
    (st.getAllApps store fetch).fetchCount = 1 ∧
      ∀ r apps, fetch = .resolve r → r.ok = true →
        parseCatalog r.body = some apps →
        (st.getAllApps store fetch).apps = apps ∧
          (st.getAllApps store fetch).store =
            ⟨some st._url, some (encodeCatalog apps)⟩ ∧
          ∀ laterFetch,
            (((st.getAllApps store fetch).state).getAllApps
                ((st.getAllApps store fetch).store) laterFetch).fetchCount = 0 ∧
              (((st.getAllApps store fetch).state).getAllApps
                  ((st.getAllApps store fetch).store) laterFetch).apps = apps := by
  constructor
  · unfold AppDirectory.getAllApps
    simp only [if_neg h]
    cases fetch with
    | reject => rfl
    | resolve r =>
      cases hok : r.ok
      · simp [hok]
      · cases hp : parseCatalog r.body <;> simp [hok, hp]
  · intro r apps hf hok hp
    subst hf
    have hcall : st.getAllApps store (.resolve r) =
        ⟨apps, { st with _directory := apps },
          ⟨some st._url, some (encodeCatalog apps)⟩, 1⟩ := by
      unfold AppDirectory.getAllApps
      simp [h, hok, hp]
    refine ⟨by rw [hcall], by rw [hcall], ?_⟩
    intro laterFetch
    rw [hcall]
    have hhit : (Store.mk (some st._url) (some (encodeCatalog apps))).url =
        some ({ st with _directory := apps })._url := rfl
    rw [getAllApps_cache_hit _ _ laterFetch hhit]
    exact ⟨rfl, rfl⟩

theorem getAllApps_cache_miss_witness :
    (¬(Store.mk (some "old") none).url = some (AppDirectory.mk [] "new")._url) ∧
      ((AppDirectory.mk [] "new").getAllApps ⟨some "old", none⟩
          (.resolve ⟨200, .valid [⟨"1", "App 1", "", "", []⟩]⟩)).fetchCount = 1 ∧
      ((AppDirectory.mk [] "new").getAllApps ⟨some "old", none⟩
          (.resolve ⟨200, .valid [⟨"1", "App 1", "", "", []⟩]⟩)).apps =
        [⟨"1", "App 1", "", "", []⟩] := by
  have h : ¬(Store.mk (some "old") none).url =
      some (AppDirectory.mk [] "new")._url := by decide
  have main := getAllApps_cache_miss ⟨[], "new"⟩ ⟨some "old", none⟩
    (.resolve ⟨200, .valid [⟨"1", "App 1", "", "", []⟩]⟩) h
  exact ⟨h, main.1,
    (main.2 ⟨200, .valid [⟨"1", "App 1", "", "", []⟩]⟩
      [⟨"1", "App 1", "", "", []⟩] rfl (by decide) rfl).1⟩

/-- C4: construction over a store whose catalog value is absent or fails
to decode completes (it is a total function, with no fetch parameter, so
no error and no network I/O are possible), yields an empty in-memory
catalog, and, in the unparsable case, overwrites the store's catalog entry
with an empty-catalog encoding — after which a new construction over the
healed store reads back the empty catalog without touching the store
again. -/
theorem create_degrades_to_empty (configuredUrl : String) (store : Store) :
    (store.applications = none →
        AppDirectory.create configuredUrl store = (⟨[], configuredUrl⟩, store)) ∧
      ∀ blob, store.applications = some blob → parseCatalog blob = none →
        AppDirectory.create configuredUrl store =
            (⟨[], configuredUrl⟩,
              { store with applications := some (encodeCatalog []) }) ∧
          AppDirectory.create configuredUrl
              { store with applications := some (encodeCatalog []) } =
            (⟨[], configuredUrl⟩,
              { store with applications := some (encodeCatalog []) }) := by
  constructor
  · intro habs
    unfold AppDirectory.create
    rw [habs]
  · intro blob hsome hcorrupt
    constructor
    · unfold AppDirectory.create
      rw [hsome]
      simp only [hcorrupt]
    · rfl

theorem create_degrades_to_empty_witness :
    (Store.mk (some "u") (some (.corrupt "__not_valid_json__"))).applications =
        some (.corrupt "__not_valid_json__") ∧
      parseCatalog (.corrupt "__not_valid_json__") = none ∧
      AppDirectory.create "u" ⟨some "u", some (.corrupt "__not_valid_json__")⟩ =
        (⟨[], "u"⟩, ⟨some "u", some (encodeCatalog [])⟩) :=
  ⟨rfl, rfl,
    ((create_degrades_to_empty "u"
        ⟨some "u", some (.corrupt "__not_valid_json__")⟩).2
      (.corrupt "__not_valid_json__") rfl rfl).1⟩

/-- C6: `getAppsByIntent` returns exactly the applications declaring at
least one intent with the queried name — its result is a sublist of the
catalog (hence preserves catalog order), membership is exactly "declares
the intent", and when no application declares it the result is the empty
sequence (the result type is a sequence, so no not-found signal exists). -/
theorem getAppsByIntent_exact (apps : List Application) (intentName : String) :
    List.Sublist (getAppsByIntent apps intentName) apps ∧
      (∀ a, a ∈ getAppsByIntent apps intentName ↔
        a ∈ apps ∧ declaresIntent a intentName = true) ∧
      ((∀ a ∈ apps, declaresIntent a intentName = false) →
        getAppsByIntent apps intentName = []) := by
  refine ⟨List.filter_sublist _, fun a => List.mem_filter, fun hnone => ?_⟩
  apply List.filter_eq_nil_iff.mpr
  intro a ha
  simp [hnone a ha]

theorem getAppsByIntent_exact_witness :
    (∀ a ∈ [Application.mk "id-0" "test-app-0" "" ""
        [⟨"Call", ["dial"], []⟩]], declaresIntent a "Chart" = false) ∧
      getAppsByIntent
        [Application.mk "id-0" "test-app-0" "" "" [⟨"Call", ["dial"], []⟩]]
        "Chart" = [] :=
  ⟨by decide,
    (getAppsByIntent_exact
        [Application.mk "id-0" "test-app-0" "" "" [⟨"Call", ["dial"], []⟩]]
        "Chart").2.2 (by decide)⟩

/-- C7: `getAppByName` returns the first application in catalog order whose
`name` field exactly equals the argument: a `none` result — the not-found
signal, not an exception (the function is total) — exactly when no
application matches, and a `some a` result means `a` matches and every
application before it in the catalog does not. -/
theorem getAppByName_first_exact (apps : List Application) (name : String) :
    (getAppByName apps name = none ↔ ∀ a ∈ apps, a.name ≠ name) ∧
      ∀ a, getAppByName apps name = some a →
        a.name = name ∧ ∃ before after, apps = before ++ a :: after ∧
          ∀ b ∈ before, b.name ≠ name := by
  constructor
  · simp [getAppByName, List.find?_eq_none]
  · induction apps with
    | nil => intro a h; simp [getAppByName] at h
    | cons hd tl ih =>
      intro a h
      by_cases hp : hd.name = name
      · rw [getAppByName, List.find?_cons_of_pos _ (by simp [hp])] at h
        cases h
        exact ⟨hp, [], tl, rfl, by simp⟩
      · rw [getAppByName, List.find?_cons_of_neg _ (by simp [hp])] at h
        obtain ⟨ha, before, after, heq, hb⟩ := ih a h
        refine ⟨ha, hd :: before, after, by rw [heq]; rfl, ?_⟩
        intro b hb'
        rcases List.mem_cons.mp hb' with rfl | hmem
        · exact hp
        · exact hb b hmem

theorem getAppByName_first_exact_witness :
    getAppByName
        [Application.mk "id-0" "test-app-0" "" "" [⟨"Call", ["dial"], []⟩]]
        "test-app-0" =
      some (Application.mk "id-0" "test-app-0" "" "" [⟨"Call", ["dial"], []⟩]) ∧
      (Application.mk "id-0" "test-app-0" "" ""
        [⟨"Call", ["dial"], []⟩]).name = "test-app-0" :=
  ⟨by decide,
    ((getAppByName_first_exact
        [Application.mk "id-0" "test-app-0" "" "" [⟨"Call", ["dial"], []⟩]]
        "test-app-0").2
      (Application.mk "id-0" "test-app-0" "" "" [⟨"Call", ["dial"], []⟩])
      (by decide)).1⟩

/-- C8 counterexample: the success predicate the repository actually uses
(the `ok` getter of the `Response` mock, `status >= 200 && status <= 400`)
accepts status 400, which lies outside the 2xx–3xx classes — outside any
range conventionally associated with success — and the refresh completes
successfully there: at status 400 with a decodable body, `getAllApps`
replaces the catalog and persists it. -/
theorem response_ok_at_400_counterexample :
    Response.ok ⟨400, .valid []⟩ = true ∧
      conventionalSuccess 400 = false ∧
      ((AppDirectory.mk [] "new").getAllApps ⟨some "old", none⟩
          (.resolve ⟨400, .valid [⟨"1", "App 1", "", "", []⟩]⟩)).apps =
        [⟨"1", "App 1", "", "", []⟩] ∧
      ((AppDirectory.mk [] "new").getAllApps ⟨some "old", none⟩
          (.resolve ⟨400, .valid [⟨"1", "App 1", "", "", []⟩]⟩)).store =
        ⟨some "new", some (.valid [⟨"1", "App 1", "", "", []⟩])⟩ := by
  decide

/-- C8 (amended): the refresh treats a resolved, decodable response as
successful exactly when its status lies in the inclusive range 200–400 —
the 2xx and 3xx classes plus the boundary status 400 itself, which the
repository's success predicate also accepts: on a cache miss, the call
replaces and persists the catalog precisely for those statuses. -/
theorem getAllApps_success_status_range (st : AppDirectory) (store : Store)
    (status : Nat) (apps : List Application) (h : ¬store.url = some st._url) :
    (st.getAllApps store (.resolve ⟨status, .valid apps⟩) =
        ⟨apps, ⟨apps, st._url⟩,
          ⟨some st._url, some (encodeCatalog apps)⟩, 1⟩) ↔
      (200 ≤ status ∧ status ≤ 400) := by
  constructor
  · intro heq
    by_contra hrange
    have hok : Response.ok ⟨status, .valid apps⟩ = false := by
      simp only [Response.ok, Bool.and_eq_false_iff, decide_eq_false_iff_not]
      omega
    rw [AppDirectory.getAllApps] at heq
    simp only [if_neg h, hok, Bool.false_eq_true, if_false] at heq
    have hstore : store = ⟨some st._url, some (encodeCatalog apps)⟩ :=
      congrArg GetAllAppsResult.store heq
    exact h (by rw [hstore])
  · intro hrange
    have hok : Response.ok ⟨status, .valid apps⟩ = true := by
      simp only [Response.ok, Bool.and_eq_true, decide_eq_true_eq]
      omega
    rw [AppDirectory.getAllApps]
    simp [h, hok, parseCatalog, encodeCatalog]

theorem getAllApps_success_status_range_witness :
    (¬(Store.mk (some "old") none).url = some (AppDirectory.mk [] "new")._url) ∧
      (200 ≤ 250 ∧ 250 ≤ 400) ∧
      (AppDirectory.mk [] "new").getAllApps ⟨some "old", none⟩
          (.resolve ⟨250, .valid []⟩) =
        ⟨[], ⟨[], "new"⟩, ⟨some "new", some (encodeCatalog [])⟩, 1⟩ :=
  ⟨by decide, by omega,
    (getAllApps_success_status_range ⟨[], "new"⟩ ⟨some "old", none⟩ 250 []
      (by decide)).mpr (by omega)⟩

/-- C9: when `joinChannel(id)` rejects, the handler performs no state
update — neither `setCurrentChannelId` nor `setColor` appears among its
effects — it only catches and logs the error (and, being a total function,
lets no exception escape); conversely any state update among the effects
means the join resolved. -/
theorem handleChange_reject_keeps_state (channels : List Channel)
    (id : String) :
    (∀ message, handleChange channels id (.rejects message) =
        [ChannelAction.logError
          ("Unable to join channel " ++ id ++ "! " ++ message)]) ∧
      ∀ join,
        ((∃ i, ChannelAction.setCurrentChannelId i ∈
            handleChange channels id join) ∨
          (∃ c, ChannelAction.setColor c ∈ handleChange channels id join)) →
        join = .resolves := by
  refine ⟨fun message => rfl, ?_⟩
  intro join hmem
  cases join with
  | resolves => rfl
  | rejects message =>
    exfalso
    rcases hmem with ⟨i, hi⟩ | ⟨c, hc⟩
    · simp [handleChange] at hi
    · simp [handleChange] at hc

theorem handleChange_reject_keeps_state_witness :
    ((∃ i, ChannelAction.setCurrentChannelId i ∈
        handleChange [⟨"red", "Red", 123⟩] "red" .resolves) ∨
      (∃ c, ChannelAction.setColor c ∈
        handleChange [⟨"red", "Red", 123⟩] "red" .resolves)) ∧
      (JoinOutcome.resolves = .resolves) ∧
      handleChange [⟨"red", "Red", 123⟩] "red" (.rejects "boom") =
        [ChannelAction.logError "Unable to join channel red! boom"] :=
  ⟨Or.inl ⟨"red", by decide⟩,
    (handleChange_reject_keeps_state [⟨"red", "Red", 123⟩] "red").2 .resolves
      (Or.inl ⟨"red", by decide⟩),
    (handleChange_reject_keeps_state [⟨"red", "Red", 123⟩] "red").1 "boom"⟩

/-- C10: `numberToHex num` is the base-16 representation of `num`
left-padded with `'0'` characters, its length is at least 6 (exactly the
larger of 6 and the unpadded length), and it is exactly 6 characters long
whenever `num < 16 ^ 6`. -/
theorem numberToHex_pads_to_six (num : Nat) :
    (∃ k, numberToHex num =
        String.mk (List.replicate k '0') ++ toHexString num) ∧
      (numberToHex num).length = max 6 (toHexString num).length ∧
      6 ≤ (numberToHex num).length ∧
      (num < 16 ^ 6 → (numberToHex num).length = 6) := by
  have hlen : (numberToHex num).length =
      (6 - (toHexString num).length) + (toHexString num).length := by
    have hrep : (String.mk (List.replicate (6 - (toHexString num).length)
        '0')).length = 6 - (toHexString num).length := by
      show (List.replicate (6 - (toHexString num).length) '0').length = _
      simp
    rw [numberToHex, padStart, String.length_append, hrep]
  refine ⟨⟨6 - (toHexString num).length, rfl⟩, by omega, by omega, ?_⟩
  intro hsmall
  have hhex : (toHexString num).length ≤ 6 := by
    by_cases hz : num = 0
    · subst hz
      rw [toHexString]
      decide
    · have hdig : (toHexString num).length = (Nat.digits 16 num).length := by
        rw [toHexString, if_neg hz]
        show (((Nat.digits 16 num).map Nat.digitChar).reverse).length =
          (Nat.digits 16 num).length
        rw [List.length_reverse, List.length_map]
      rw [hdig, Nat.digits_len 16 num (by norm_num) hz]
      have hlog : Nat.log 16 num < 6 :=
        (Nat.lt_pow_iff_log_lt (by norm_num) hz).mp hsmall
      omega
  omega

theorem numberToHex_pads_to_six_witness :
    255 < 16 ^ 6 ∧ (numberToHex 255).length = 6 :=
  ⟨by norm_num, (numberToHex_pads_to_six 255).2.2.2 (by norm_num)⟩

theorem charListLe_iff (s t : List Char) : charListLe s t = true ↔ s ≤ t := by
  induction s generalizing t with
  | nil =>
    simp only [charListLe, true_iff]
    exact List.nil_le
  | cons a as ih =>
    cases t with
    | nil =>
      simp only [charListLe, Bool.false_eq_true, false_iff]
      exact (List.nil_lt_cons a as).not_le
    | cons b bs =>
      rcases lt_trichotomy a b with hab | heq | hba
      · simp only [charListLe, if_pos hab, true_iff]
        exact le_of_lt (List.Lex.rel hab)
      · subst heq
        simp only [charListLe, if_neg (lt_irrefl a), ih]
        constructor
        · intro hle
          rcases lt_or_eq_of_le hle with hlt | heq
          · exact le_of_lt (List.Lex.cons hlt)
          · rw [heq]
        · intro hle
          rcases lt_or_eq_of_le hle with hlt | heq
          · exact le_of_lt ((List.Lex.cons_iff).mp hlt)
          · cases heq
            exact le_rfl
      · simp only [charListLe, if_neg (asymm hba), if_pos hba,
          Bool.false_eq_true, false_iff]
        exact not_le_of_lt (List.Lex.rel hba)

theorem lexLe_iff (s t : String) : lexLe s t = true ↔ s ≤ t := by
  rw [String.le_iff_toList_le]
  exact charListLe_iff s.data t.data

instance : IsTotal (String × List Application) groupLe :=
  ⟨fun g h => by
    rcases le_total g.1 h.1 with hle | hle
    · exact Or.inl ((lexLe_iff g.1 h.1).mpr hle)
    · exact Or.inr ((lexLe_iff h.1 g.1).mpr hle)⟩

instance : IsTrans (String × List Application) groupLe :=
  ⟨fun g h k hgh hhk =>
    (lexLe_iff g.1 k.1).mpr
      (le_trans ((lexLe_iff g.1 h.1).mp hgh) ((lexLe_iff h.1 k.1).mp hhk))⟩

theorem ensureMem_idem (group : List Application) (a : Application) :
    ensureMem (ensureMem group a) a = ensureMem group a := by
  by_cases h : a ∈ group
  · simp [ensureMem, h]
  · simp [ensureMem, h]

theorem dedupFirstAux_congr {s t : List Application}
    (h : ∀ x, x ∈ s ↔ x ∈ t) (l : List Application) :
    dedupFirstAux s l = dedupFirstAux t l := by
  induction l generalizing s t with
  | nil => rfl
  | cons a rest ih =>
    simp only [dedupFirstAux]
    by_cases ha : a ∈ s
    · rw [if_pos ha, if_pos ((h a).mp ha)]
      exact ih h
    · rw [if_neg ha, if_neg (fun hx => ha ((h a).mpr hx))]
      refine congrArg (a :: ·) (ih ?_)
      intro x
      simp only [List.mem_cons]
      exact or_congr Iff.rfl (h x)

theorem mem_dedupFirstAux (seen l : List Application) (x : Application) :
    x ∈ dedupFirstAux seen l ↔ x ∈ l ∧ x ∉ seen := by
  induction l generalizing seen with
  | nil => simp [dedupFirstAux]
  | cons a rest ih =>
    simp only [dedupFirstAux]
    by_cases ha : a ∈ seen
    · rw [if_pos ha, ih]
      simp only [List.mem_cons]
      constructor
      · rintro ⟨hx, hns⟩
        exact ⟨Or.inr hx, hns⟩
      · rintro ⟨hx | hx, hns⟩
        · exact absurd (hx ▸ ha) hns
        · exact ⟨hx, hns⟩
    · rw [if_neg ha]
      simp only [List.mem_cons, ih (a :: seen)]
      constructor
      · rintro (rfl | ⟨hx, hns⟩)
        · exact ⟨Or.inl rfl, ha⟩
        · exact ⟨Or.inr hx, fun hs => hns (Or.inr hs)⟩
      · rintro ⟨hx | hx, hns⟩
        · exact Or.inl hx
        · by_cases hxa : x = a
          · exact Or.inl hxa
          · exact Or.inr ⟨hx, by simp [List.mem_cons, hxa, hns]⟩

theorem dedupFirstAux_sublist (seen l : List Application) :
    List.Sublist (dedupFirstAux seen l) l := by
  induction l generalizing seen with
  | nil => exact List.Sublist.refl []
  | cons a rest ih =>
    simp only [dedupFirstAux]
    by_cases ha : a ∈ seen
    · rw [if_pos ha]
      exact (ih seen).cons a
    · rw [if_neg ha]
      exact (ih (a :: seen)).cons₂ a

theorem nodup_dedupFirstAux (seen l : List Application) :
    (dedupFirstAux seen l).Nodup := by
  induction l generalizing seen with
  | nil => exact List.nodup_nil
  | cons a rest ih =>
    simp only [dedupFirstAux]
    by_cases ha : a ∈ seen
    · rw [if_pos ha]
      exact ih seen
    · rw [if_neg ha]
      refine List.nodup_cons.mpr ⟨?_, ih (a :: seen)⟩
      intro hmem
      exact ((mem_dedupFirstAux (a :: seen) rest a).mp hmem).2
        (List.mem_cons_self a seen)

theorem dedupFirstAux_eq_nil (seen l : List Application)
    (h : ∀ x ∈ l, x ∉ seen) : dedupFirstAux seen l = [] ↔ l = [] := by
  cases l with
  | nil => simp [dedupFirstAux]
  | cons a rest =>
    simp only [dedupFirstAux,
      if_neg (h a (List.mem_cons_self a rest)), List.cons_ne_nil]

theorem collectMatching_eq_dedup (p : Application → Bool)
    (group l : List Application) :
    collectMatching p group l = group ++ dedupFirstAux group (l.filter p) := by
  induction l generalizing group with
  | nil => simp [collectMatching, dedupFirstAux]
  | cons a rest ih =>
    simp only [collectMatching]
    by_cases hp : p a
    · rw [if_pos hp, List.filter_cons_of_pos hp]
      by_cases hmem : a ∈ group
      · rw [ensureMem, if_pos hmem, ih]
        simp only [dedupFirstAux, if_pos hmem]
      · rw [ensureMem, if_neg hmem, ih]
        simp only [dedupFirstAux, if_neg hmem]
        rw [dedupFirstAux_congr (t := a :: group)
          (fun x => by simp [List.mem_append, List.mem_cons, or_comm])]
        simp
    · rw [if_neg hp, List.filter_cons_of_neg hp, ih]

theorem groupFor_nil (m : String) : groupFor [] m = [] :=
  rfl

theorem groupFor_cons (g : String × List Application)
    (rest : List (String × List Application)) (m : String) :
    groupFor (g :: rest) m = if g.1 = m then g.2 else groupFor rest m := by
  unfold groupFor
  by_cases hg : g.1 = m
  · rw [List.find?_cons_of_pos _ (by simp [hg]), if_pos hg]
  · rw [List.find?_cons_of_neg _ (by simp [hg]), if_neg hg]

theorem groupFor_addToGroup (groups : List (String × List Application))
    (n : String) (a : Application) (m : String) :
    groupFor (addToGroup groups n a) m =
      if m = n then ensureMem (groupFor groups n) a
      else groupFor groups m := by
  induction groups with
  | nil =>
    by_cases hmn : m = n
    · simp [addToGroup, groupFor_cons, groupFor_nil, hmn, ensureMem]
    · have hnm : ¬n = m := fun h => hmn h.symm
      simp [addToGroup, groupFor_cons, groupFor_nil, hmn, hnm]
  | cons g rest ih =>
    by_cases hg : g.1 = n <;> by_cases hm : g.1 = m
    · have hmn : m = n := hm.symm.trans hg
      simp [addToGroup, hg, hm, groupFor_cons, hmn]
    · have hmn : ¬m = n := fun h => hm (hg.trans h.symm)
      have hnm : ¬n = m := fun h => hmn h.symm
      simp [addToGroup, hg, hm, groupFor_cons, hmn, hnm]
    · have hmn : ¬m = n := fun h => hg (hm.trans h)
      simp [addToGroup, hg, hm, groupFor_cons, hmn]
    · simp [addToGroup, hg, hm, groupFor_cons, ih]

theorem groupFor_intentFold (is : List Intent) (a : Application)
    (context : String) (groups : List (String × List Application))
    (m : String) :
    groupFor (is.foldl (intentStep a context) groups) m =
      if is.any (fun i => i.name == m && i.contexts.contains context)
      then ensureMem (groupFor groups m) a
      else groupFor groups m := by
  induction is generalizing groups with
  | nil => simp
  | cons i t ih =>
    rw [List.foldl_cons, ih]
    by_cases hc : i.contexts.contains context = true
    · by_cases hn : i.name = m
      · have hstep : groupFor (intentStep a context groups i) m =
            ensureMem (groupFor groups m) a := by
          rw [intentStep, if_pos hc, groupFor_addToGroup, if_pos hn.symm, hn]
        have hcm : context ∈ i.contexts := by simpa using hc
        have hhead : ((i :: t).any
            (fun i => i.name == m && i.contexts.contains context)) = true := by
          simp [List.any_cons, hn, hcm]
        rw [hstep, if_pos hhead]
        by_cases ht : t.any (fun i => i.name == m &&
            i.contexts.contains context) = true
        · rw [if_pos ht, ensureMem_idem]
        · rw [if_neg ht]
      · have hstep : groupFor (intentStep a context groups i) m =
            groupFor groups m := by
          rw [intentStep, if_pos hc, groupFor_addToGroup,
            if_neg (fun h : m = i.name => hn h.symm)]
        have hhead : ((i :: t).any
              (fun i => i.name == m && i.contexts.contains context)) =
            (t.any (fun i => i.name == m && i.contexts.contains context)) := by
          simp [List.any_cons, hn]
        rw [hstep, hhead]
    · have hnotin : context ∉ i.contexts := by simpa using hc
      have hstep : intentStep a context groups i = groups := by
        rw [intentStep, if_neg hc]
      have hhead : ((i :: t).any
            (fun i => i.name == m && i.contexts.contains context)) =
          (t.any (fun i => i.name == m && i.contexts.contains context)) := by
        simp [List.any_cons, hnotin]
      rw [hstep, hhead]

theorem groupFor_appFold (apps : List Application) (context : String)
    (groups : List (String × List Application)) (m : String) :
    groupFor (apps.foldl (appStep context) groups) m =
      collectMatching (fun a => declaresIntentWithContext a m context)
        (groupFor groups m) apps := by
  induction apps generalizing groups with
  | nil => simp [collectMatching]
  | cons a rest ih =>
    rw [List.foldl_cons, ih]
    simp only [collectMatching]
    congr 1
    rw [appStep, groupFor_intentFold]
    rfl

theorem groupFor_collectGroups (apps : List Application)
    (context m : String) :
    groupFor (collectGroups apps context) m =
      dedupFirst (apps.filter
        (fun a => declaresIntentWithContext a m context)) := by
  rw [collectGroups, groupFor_appFold, groupFor_nil,
    collectMatching_eq_dedup, dedupFirst]
  rfl

theorem keys_addToGroup (groups : List (String × List Application))
    (n : String) (a : Application) :
    (addToGroup groups n a).map Prod.fst =
      if n ∈ groups.map Prod.fst then groups.map Prod.fst
      else groups.map Prod.fst ++ [n] := by
  induction groups with
  | nil => simp [addToGroup]
  | cons g rest ih =>
    by_cases hg : g.1 = n
    · simp [addToGroup, hg]
    · have hng : ¬n = g.1 := fun h => hg h.symm
      by_cases hmem : n ∈ rest.map Prod.fst
      · simp [addToGroup, hg, ih, hmem, hng]
      · simp [addToGroup, hg, ih, hmem, hng]

theorem mem_keys_addToGroup (groups : List (String × List Application))
    (n : String) (a : Application) (m : String) :
    m ∈ (addToGroup groups n a).map Prod.fst ↔
      m ∈ groups.map Prod.fst ∨ m = n := by
  rw [keys_addToGroup]
  by_cases hmem : n ∈ groups.map Prod.fst
  · rw [if_pos hmem]
    constructor
    · exact Or.inl
    · rintro (h | rfl)
      · exact h
      · exact hmem
  · rw [if_neg hmem]
    simp [List.mem_append]

theorem nodup_keys_addToGroup (groups : List (String × List Application))
    (n : String) (a : Application) (h : (groups.map Prod.fst).Nodup) :
    ((addToGroup groups n a).map Prod.fst).Nodup := by
  rw [keys_addToGroup]
  by_cases hmem : n ∈ groups.map Prod.fst
  · rwa [if_pos hmem]
  · rw [if_neg hmem]
    simp [List.nodup_append, h, hmem]

theorem nodup_keys_intentFold (is : List Intent) (a : Application)
    (context : String) (groups : List (String × List Application))
    (h : (groups.map Prod.fst).Nodup) :
    ((is.foldl (intentStep a context) groups).map Prod.fst).Nodup := by
  induction is generalizing groups with
  | nil => exact h
  | cons i t ih =>
    rw [List.foldl_cons]
    apply ih
    rw [intentStep]
    by_cases hc : i.contexts.contains context = true
    · rw [if_pos hc]
      exact nodup_keys_addToGroup _ _ _ h
    · rwa [if_neg hc]

theorem mem_keys_intentFold (is : List Intent) (a : Application)
    (context : String) (groups : List (String × List Application))
    (m : String) :
    m ∈ (is.foldl (intentStep a context) groups).map Prod.fst ↔
      m ∈ groups.map Prod.fst ∨
        (is.any (fun i => i.name == m && i.contexts.contains context))
          = true := by
  induction is generalizing groups with
  | nil => simp
  | cons i t ih =>
    rw [List.foldl_cons, ih]
    by_cases hc : i.contexts.contains context = true
    · have hcm : context ∈ i.contexts := by simpa using hc
      rw [intentStep, if_pos hc, mem_keys_addToGroup]
      by_cases hn : i.name = m
      · simp [List.any_cons, hn, hcm, or_assoc]
      · have hmn : ¬m = i.name := fun h => hn h.symm
        simp [List.any_cons, hn, hmn, hcm, or_assoc]
    · have hnotin : context ∉ i.contexts := by simpa using hc
      rw [intentStep, if_neg hc]
      simp [List.any_cons, hnotin]

theorem nodup_keys_collectGroups (apps : List Application)
    (context : String) :
    ((collectGroups apps context).map Prod.fst).Nodup := by
  rw [collectGroups]
  have haux : ∀ (l : List Application)
      (groups : List (String × List Application)),
      (groups.map Prod.fst).Nodup →
      ((l.foldl (appStep context) groups).map Prod.fst).Nodup := by
    intro l
    induction l with
    | nil => exact fun groups h => h
    | cons a rest ih =>
      intro groups h
      rw [List.foldl_cons]
      exact ih _ (nodup_keys_intentFold _ _ _ _ h)
  exact haux apps [] List.nodup_nil

theorem mem_keys_appFold (apps : List Application) (context : String)
    (groups : List (String × List Application)) (m : String) :
    m ∈ (apps.foldl (appStep context) groups).map Prod.fst ↔
      m ∈ groups.map Prod.fst ∨
        ∃ a ∈ apps, declaresIntentWithContext a m context = true := by
  induction apps generalizing groups with
  | nil => simp
  | cons a rest ih =>
    rw [List.foldl_cons, ih]
    have happ : appStep context groups a =
        a.intents.foldl (intentStep a context) groups := rfl
    rw [happ, mem_keys_intentFold]
    simp [declaresIntentWithContext, or_assoc]

theorem eq_groupFor_of_mem (groups : List (String × List Application))
    (h : (groups.map Prod.fst).Nodup) (g : String × List Application)
    (hg : g ∈ groups) : g.2 = groupFor groups g.1 := by
  induction groups with
  | nil => cases hg
  | cons head rest ih =>
    simp only [List.map_cons, List.nodup_cons] at h
    rw [groupFor_cons]
    rcases List.mem_cons.mp hg with heq | hmem
    · rw [heq, if_pos rfl]
    · have hne : head.1 ≠ g.1 := by
        intro he
        exact h.1 (he ▸ List.mem_map_of_mem Prod.fst hmem)
      rw [if_neg hne]
      exact ih h.2 hmem

theorem mem_collectGroups_iff (apps : List Application) (context : String)
    (g : String × List Application) :
    g ∈ collectGroups apps context ↔
      (∃ a ∈ apps, declaresIntentWithContext a g.1 context = true) ∧
        g.2 = dedupFirst (apps.filter
          (fun a => declaresIntentWithContext a g.1 context)) := by
  constructor
  · intro hg
    have hkey : g.1 ∈ (collectGroups apps context).map Prod.fst :=
      List.mem_map_of_mem Prod.fst hg
    rw [collectGroups, mem_keys_appFold] at hkey
    rcases hkey with hkey | hkey
    · simp at hkey
    · refine ⟨hkey, ?_⟩
      rw [eq_groupFor_of_mem _ (nodup_keys_collectGroups apps context) g hg,
        groupFor_collectGroups]
  · rintro ⟨hex, hval⟩
    have hkey : g.1 ∈ (collectGroups apps context).map Prod.fst := by
      rw [collectGroups, mem_keys_appFold]
      exact Or.inr hex
    rcases List.mem_map.mp hkey with ⟨p, hp, hp1⟩
    have hp2 : p.2 = g.2 := by
      rw [eq_groupFor_of_mem _ (nodup_keys_collectGroups apps context) p hp,
        groupFor_collectGroups, hp1, hval]
    have : p = g := Prod.ext hp1 hp2
    exact this ▸ hp

/-- C5: `getAppIntentsByContext` returns one entry per distinct intent name
declared by some application with the queried context — entries sorted
strictly by intent name in ordinary lexical order, each entry's
`displayName` equal to its `name`, each entry's apps exactly the declaring
applications in first-seen catalog order (a deduplicated sublist of the
catalog, no application repeated under one intent, nonempty), and an empty
result when no intent matches. -/
theorem getAppIntentsByContext_grouped_and_sorted
    (apps : List Application) (context : String) :
    List.Pairwise (fun e f : AppIntent => e.intent.name < f.intent.name)
        (getAppIntentsByContext apps context) ∧
      (∀ e ∈ getAppIntentsByContext apps context,
        e.intent.displayName = e.intent.name ∧
          e.apps = dedupFirst (apps.filter
            (fun a => declaresIntentWithContext a e.intent.name context)) ∧
          List.Sublist e.apps apps ∧
          e.apps.Nodup ∧
          e.apps ≠ [] ∧
          ∀ x, x ∈ e.apps ↔ x ∈ apps ∧
            declaresIntentWithContext x e.intent.name context = true) ∧
      (∀ n, (∃ e ∈ getAppIntentsByContext apps context, e.intent.name = n) ↔
        ∃ a ∈ apps, declaresIntentWithContext a n context = true) ∧
      ((∀ a ∈ apps, ∀ i ∈ a.intents, i.contexts.contains context = false) →
        getAppIntentsByContext apps context = []) := by
  have hperm := List.perm_insertionSort groupLe (collectGroups apps context)
  have hsorted := List.sorted_insertionSort groupLe (collectGroups apps context)
  have hkeysnodup :
      (((List.insertionSort groupLe
        (collectGroups apps context)).map Prod.fst)).Nodup :=
    ((hperm.map Prod.fst).nodup_iff).mpr (nodup_keys_collectGroups apps context)
  refine ⟨?_, ?_, ?_, ?_⟩
  · rw [getAppIntentsByContext, List.pairwise_map]
    have h1 : List.Pairwise groupLe
        (List.insertionSort groupLe (collectGroups apps context)) := hsorted
    have h2 : List.Pairwise
        (fun g h : String × List Application => g.1 ≠ h.1)
        (List.insertionSort groupLe (collectGroups apps context)) :=
      List.pairwise_map.mp hkeysnodup
    exact (h1.and h2).imp
      (fun hgh => lt_of_le_of_ne ((lexLe_iff _ _).mp hgh.1) hgh.2)
  · intro e he
    rw [getAppIntentsByContext] at he
    rcases List.mem_map.mp he with ⟨g, hg, rfl⟩
    have hgc : g ∈ collectGroups apps context := (hperm.mem_iff).mp hg
    rcases (mem_collectGroups_iff apps context g).mp hgc with
      ⟨⟨a, ha, hdec⟩, hval⟩
    refine ⟨rfl, hval, ?_, ?_, ?_, ?_⟩
    · show List.Sublist g.2 apps
      rw [hval]
      exact (dedupFirstAux_sublist _ _).trans (List.filter_sublist _)
    · show g.2.Nodup
      rw [hval]
      exact nodup_dedupFirstAux _ _
    · show g.2 ≠ []
      rw [hval]
      intro hnil
      have hmem : a ∈ apps.filter
          (fun x => declaresIntentWithContext x g.1 context) :=
        List.mem_filter.mpr ⟨ha, hdec⟩
      rw [dedupFirst, dedupFirstAux_eq_nil _ _ (by simp)] at hnil
      rw [hnil] at hmem
      cases hmem
    · intro x
      show x ∈ g.2 ↔ _
      rw [hval, dedupFirst, mem_dedupFirstAux, List.mem_filter]
      simp
  · intro n
    constructor
    · rintro ⟨e, he, rfl⟩
      rw [getAppIntentsByContext] at he
      rcases List.mem_map.mp he with ⟨g, hg, rfl⟩
      have hgc : g ∈ collectGroups apps context := hperm.mem_iff.mp hg
      exact ((mem_collectGroups_iff apps context g).mp hgc).1
    · rintro ⟨a, ha, hdec⟩
      have hkey : n ∈ (collectGroups apps context).map Prod.fst := by
        rw [collectGroups, mem_keys_appFold]
        exact Or.inr ⟨a, ha, hdec⟩
      rcases List.mem_map.mp hkey with ⟨p, hp, hp1⟩
      refine ⟨⟨⟨p.1, p.1⟩, p.2⟩, ?_, hp1⟩
      rw [getAppIntentsByContext]
      exact List.mem_map_of_mem _ (hperm.mem_iff.mpr hp)
  · intro hnone
    by_contra hne
    rcases List.exists_mem_of_ne_nil _ hne with ⟨e, he⟩
    rw [getAppIntentsByContext] at he
    rcases List.mem_map.mp he with ⟨g, hg, rfl⟩
    have hgc : g ∈ collectGroups apps context := hperm.mem_iff.mp hg
    rcases ((mem_collectGroups_iff apps context g).mp hgc).1 with
      ⟨a, ha, hdec⟩
    rw [declaresIntentWithContext, List.any_eq_true] at hdec
    rcases hdec with ⟨i, hi, hcond⟩
    rw [Bool.and_eq_true] at hcond
    have hfalse := hnone a ha i hi
    rw [hfalse] at hcond
    exact Bool.false_ne_true hcond.2

theorem getAppIntentsByContext_grouped_and_sorted_witness :
    (∀ a ∈ [Application.mk "1" "App 1" "" ""
        [⟨"testIntent.StartChat", ["testContext.User"], []⟩]],
      ∀ i ∈ a.intents,
        i.contexts.contains "testContext.NonExistent" = false) ∧
      getAppIntentsByContext
        [Application.mk "1" "App 1" "" ""
          [⟨"testIntent.StartChat", ["testContext.User"], []⟩]]
        "testContext.NonExistent" = [] :=
  ⟨by decide,
    (getAppIntentsByContext_grouped_and_sorted
      [Application.mk "1" "App 1" "" ""
        [⟨"testIntent.StartChat", ["testContext.User"], []⟩]]
      "testContext.NonExistent").2.2.2 (by decide)⟩

end Fdc3
